import Mathlib

/-!
Shallow embedding of the resident record store of the barangay-system
backend (the Express + Redis server, backend section of
src/redis-frontend/src/App.jsx).  Redis state is modelled explicitly:
one hash per resident (association list of field/value pairs), the
membership set "residents" (list of ids, kept duplicate-free by sAdd),
and the shared counters row "stats" (total function from field name to
Int, an absent field reading as 0, matching HINCRBY semantics).  Each
route handler is translated as the list of atomic store operations it
performs, in the order the source performs them, so that interrupted
executions are the prefixes of that list.
-/

namespace Barangay

/-- One atomic Redis operation used by the resident handlers. -/
inductive Op where
  | sAdd (id : String)
  | sRem (id : String)
  | hSet (id field value : String)
  | hDel (id : String)
  | hIncrBy (field : String) (delta : Int)
deriving DecidableEq

/-- Store state: resident hashes, the residents membership set, the stats row. -/
structure Store where
  hashes : List (String × List (String × String))
  residents : List String
  stats : String → Int

/-- The store before any operation ran. -/
def emptyStore : Store := { hashes := [], residents := [], stats := fun _ => 0 }

/-- ASCII lower-casing of one character, as JS toLowerCase acts on the
ASCII field values of this system. -/
def lowerChar (c : Char) : Char :=
  if 65 ≤ c.toNat ∧ c.toNat ≤ 90 then Char.ofNat (c.toNat + 32) else c

/-- ASCII lower-casing of a string (model of JS toLowerCase). -/
def lowerStr (s : String) : String := String.mk (s.data.map lowerChar)

/-- Lookup of a key in an association list (Redis key or hash field lookup). -/
def lookupKey {α : Type} : List (String × α) → String → Option α
  | [], _ => none
  | (j, v) :: t, k => if j = k then some v else lookupKey t k

/-- Set a key in an association list: overwrite in place, or append a new entry. -/
def setEntry {α : Type} : List (String × α) → String → α → List (String × α)
  | [], k, v => [(k, v)]
  | (j, w) :: t, k, v => if j = k then (k, v) :: t else (j, w) :: setEntry t k v

/-- Remove a key from an association list (Redis DEL of a whole hash key). -/
def delEntry {α : Type} : List (String × α) → String → List (String × α)
  | [], _ => []
  | (j, w) :: t, k => if j = k then delEntry t k else (j, w) :: delEntry t k

/-- HGETALL resident:id, the empty list when the key does not exist. -/
def hGetAll (s : Store) (id : String) : List (String × String) :=
  (lookupKey s.hashes id).getD []

/-- Effect of one atomic operation (SADD, SREM, HSET, DEL, HINCRBY). -/
def Op.apply : Op → Store → Store
  | .sAdd id, s =>
      { s with residents := if id ∈ s.residents then s.residents else s.residents ++ [id] }
  | .sRem id, s => { s with residents := s.residents.erase id }
  | .hSet id f v, s =>
      { s with hashes := setEntry s.hashes id (setEntry (hGetAll s id) f v) }
  | .hDel id, s => { s with hashes := delEntry s.hashes id }
  | .hIncrBy f d, s =>
      { s with stats := fun g => if g = f then s.stats g + d else s.stats g }

/-- Run a list of atomic operations from left to right. -/
def applyOps (l : List Op) (s : Store) : Store := l.foldl (fun t op => op.apply t) s

/-- HTTP-level result of a mutating handler. -/
inductive Outcome where
  | ok
  | notFound
  | serverError
deriving DecidableEq

/-- Stats updates of the POST /residents handler, in source order:
HINCRBY totalResidents 1; HINCRBY totalVoters 1 when the request
votersStatus lower-cases to registered; HINCRBY residents:purok 1 when the
request purok field is a non-empty string. -/
def createStatsOps (data : List (String × String)) : List Op :=
  [Op.hIncrBy "totalResidents" 1] ++
    (if (lookupKey data "votersStatus").map lowerStr = some "registered" then
      [Op.hIncrBy "totalVoters" 1]
    else []) ++
    (match lookupKey data "purok" with
     | some p => if p = "" then [] else [Op.hIncrBy ("residents:" ++ p) 1]
     | none => [])

/-- Atomic operations of the POST /residents handler, in source order:
SADD residents id, one HSET per request field, then the stats updates. -/
def createOps (id : String) (data : List (String × String)) : List Op :=
  Op.sAdd id :: ((data.map fun kv => Op.hSet id kv.1 kv.2) ++ createStatsOps data)

/-- POST /residents with every store call succeeding: responds 201. -/
def createResident (s : Store) (id : String) (data : List (String × String)) :
    Outcome × Store :=
  (Outcome.ok, applyOps (createOps id data) s)

/-- Atomic operations actually applied when the field write at index k of a
POST /residents request fails: SADD already ran, the other writes of the
Promise.all still land, the stats updates are skipped, the catch block
performs no rollback. -/
def createFailOps (id : String) (data : List (String × String)) (k : Nat) : List Op :=
  Op.sAdd id :: ((data.eraseIdx k).map fun kv => Op.hSet id kv.1 kv.2)

/-- POST /residents in which the field write at index k fails: responds 500. -/
def createResidentFail (s : Store) (id : String) (data : List (String × String))
    (k : Nat) : Outcome × Store :=
  (Outcome.serverError, applyOps (createFailOps id data k) s)

/-- GET /residents/:id — 404 exactly when HGETALL returns an empty hash. -/
def getResident (s : Store) (id : String) : Option (List (String × String)) :=
  if hGetAll s id = [] then none else some (hGetAll s id)

/-- Compensating stats updates of DELETE /residents/:id, computed from the
pre-deletion snapshot r, in source order: HINCRBY totalResidents -1;
HINCRBY residents:purok -1 unconditionally, the field name using the string
undefined when the record has no purok; HINCRBY totalVoters -1 only when
the stored votersStatus is exactly the string Registered. -/
def deleteStatsOps (r : List (String × String)) : List Op :=
  [Op.hIncrBy "totalResidents" (-1),
   Op.hIncrBy ("residents:" ++ (lookupKey r "purok").getD "undefined") (-1)] ++
    (if lookupKey r "votersStatus" = some "Registered" then
      [Op.hIncrBy "totalVoters" (-1)]
    else [])

/-- Atomic operations of the DELETE /residents/:id handler: DEL first, SREM
second, then the compensating stats updates computed from the snapshot. -/
def deleteOps (s : Store) (id : String) : List Op :=
  if hGetAll s id = [] then []
  else Op.hDel id :: Op.sRem id :: deleteStatsOps (hGetAll s id)

/-- DELETE /residents/:id — 404 when the hash is empty, otherwise 200. -/
def deleteResident (s : Store) (id : String) : Outcome × Store :=
  (if hGetAll s id = [] then Outcome.notFound else Outcome.ok,
   applyOps (deleteOps s id) s)

/-- The PUT /residents/:id voter-status comparison throws a TypeError:
the request carries a truthy votersStatus different from the stored one,
and the stored hash has no votersStatus field, so the handler evaluates
toLowerCase on undefined. -/
def updateThrows (cur uv : Option String) : Bool :=
  match uv with
  | none => false
  | some v =>
    if v = "" then false
    else match cur with
      | none => true
      | some _ => false

/-- The two conditional voter-counter increments of PUT /residents/:id, in
source order, for stored value c and requested value v: plus one on a
transition to registered, minus one on a transition away from registered,
both compared lower-cased. -/
def voterDeltaOps (c v : String) : List Op :=
  (if lowerStr v = "registered" ∧ ¬lowerStr c = "registered" then
    [Op.hIncrBy "totalVoters" 1]
  else []) ++
  (if ¬lowerStr v = "registered" ∧ lowerStr c = "registered" then
    [Op.hIncrBy "totalVoters" (-1)]
  else [])

/-- Voter-counter deltas of PUT /residents/:id: applied only when the request
carries a truthy votersStatus that differs from the stored one and the
stored one is present (when it is absent the handler throws instead). -/
def updateVoterOps : Option String → Option String → List Op
  | _, none => []
  | none, some _ => []
  | some c, some v => if v = "" then [] else if v = c then [] else voterDeltaOps c v

/-- Atomic operations of the PUT /residents/:id handler: nothing when the id
is not a member of the set (404) or when the voter-status check throws
(500, the throw happens before any write); otherwise the voter-counter
deltas followed by one HSET per request field. -/
def updateOps (s : Store) (id : String) (data : List (String × String)) : List Op :=
  if id ∈ s.residents then
    if updateThrows (lookupKey (hGetAll s id) "votersStatus")
        (lookupKey data "votersStatus") then []
    else
      updateVoterOps (lookupKey (hGetAll s id) "votersStatus")
        (lookupKey data "votersStatus") ++
      (data.map fun kv => Op.hSet id kv.1 kv.2)
  else []

/-- HTTP status of PUT /residents/:id. -/
def updateOutcome (s : Store) (id : String) (data : List (String × String)) : Outcome :=
  if id ∈ s.residents then
    if updateThrows (lookupKey (hGetAll s id) "votersStatus")
        (lookupKey data "votersStatus") then Outcome.serverError
    else Outcome.ok
  else Outcome.notFound

/-- PUT /residents/:id. -/
def updateResident (s : Store) (id : String) (data : List (String × String)) :
    Outcome × Store :=
  (updateOutcome s id data, applyOps (updateOps s id data) s)

/-- Accumulator of the GET /analytics/stats reduce over all resident hashes. -/
structure FullStats where
  total : Nat
  male : Nat
  female : Nat
  voters : Nat
  nonVoters : Nat
  puroks : List String
deriving DecidableEq

/-- One step of the GET /analytics/stats reduce, translated field by field:
gender and votersStatus are compared lower-cased, a record without a
registered votersStatus counts as a non-voter, and a non-empty purok value
is pushed once onto the distinct-purok list. -/
def fullStatsStep (acc : FullStats) (r : List (String × String)) : FullStats :=
  { total := acc.total + 1
    male :=
      if (lookupKey r "gender").map lowerStr = some "male" then acc.male + 1
      else acc.male
    female :=
      if (lookupKey r "gender").map lowerStr = some "female" then acc.female + 1
      else acc.female
    voters :=
      if (lookupKey r "votersStatus").map lowerStr = some "registered" then
        acc.voters + 1
      else acc.voters
    nonVoters :=
      if (lookupKey r "votersStatus").map lowerStr = some "registered" then
        acc.nonVoters
      else acc.nonVoters + 1
    puroks :=
      match lookupKey r "purok" with
      | some p => if ¬p = "" ∧ p ∉ acc.puroks then acc.puroks ++ [p] else acc.puroks
      | none => acc.puroks }

/-- GET /analytics/stats: full recomputation over every existing resident
hash (KEYS resident:* followed by HGETALL on each), ignoring the stats row. -/
def getAnalyticsStats (s : Store) : FullStats :=
  s.hashes.foldl (fun acc e => fullStatsStep acc e.2)
    { total := 0, male := 0, female := 0, voters := 0, nonVoters := 0, puroks := [] }

/-- Response shape of GET /analytics/residents. -/
structure ResidentAnalytics where
  totalResidents : Nat
  maleCount : Nat
  femaleCount : Nat
  votersCount : Nat
  nonVotersCount : Nat
deriving DecidableEq

/-- One iteration of the GET /analytics/residents loop over the membership
set: HGETALL the member, lower-case its gender and votersStatus with a
default of the empty string, and bump the four counters independently. -/
def residentAnalyticsStep (s : Store) (acc : ResidentAnalytics) (id : String) :
    ResidentAnalytics :=
  let r := hGetAll s id
  let gender := lowerStr ((lookupKey r "gender").getD "")
  let vs := lowerStr ((lookupKey r "votersStatus").getD "")
  { acc with
    maleCount := if gender = "male" then acc.maleCount + 1 else acc.maleCount
    femaleCount := if gender = "female" then acc.femaleCount + 1 else acc.femaleCount
    votersCount := if vs = "registered" then acc.votersCount + 1 else acc.votersCount
    nonVotersCount :=
      if vs = "not-registered" then acc.nonVotersCount + 1 else acc.nonVotersCount }

/-- GET /analytics/residents: totalResidents is SCARD of the membership set,
the four remaining counters are recomputed by iterating over SMEMBERS and
reading each resident hash; the stats row is never consulted. -/
def getAnalyticsResidents (s : Store) : ResidentAnalytics :=
  s.residents.foldl (residentAnalyticsStep s)
    { totalResidents := s.residents.length, maleCount := 0, femaleCount := 0,
      votersCount := 0, nonVotersCount := 0 }

/-- A completed repository command: a create with a chosen fresh id, or a
delete. -/
inductive Cmd where
  | create (id : String) (data : List (String × String))
  | delete (id : String)
deriving DecidableEq

/-- Run one completed command against the store. -/
def runCmd (s : Store) : Cmd → Store
  | .create id data => (createResident s id data).2
  | .delete id => (deleteResident s id).2

/-- Run a command sequence from left to right. -/
def runCmds (cmds : List Cmd) (s : Store) : Store := cmds.foldl runCmd s

/-- A command is admissible and succeeds: a create uses a fresh id (its hash
key does not exist yet, which a fresh UUID guarantees), and a delete finds a
non-empty hash (it does not answer 404). -/
def okCmd (s : Store) : Cmd → Bool
  | .create id _ => decide (hGetAll s id = [])
  | .delete id => decide (¬hGetAll s id = [])

/-- Every command of the sequence succeeds in the state it runs in. -/
def okSeq (s : Store) : List Cmd → Bool
  | [] => true
  | c :: t => okCmd s c && okSeq (runCmd s c) t

/-- Every create of the sequence writes at least one field. -/
def createsNonempty : List Cmd → Bool
  | [] => true
  | .create _ data :: t => decide (¬data = []) && createsNonempty t
  | .delete _ :: t => createsNonempty t

/-- Reachable store states: any sequence of handler executions where each
execution may stop after any prefix of its atomic store operations
(interrupted creates, updates and deletes), and a create may also fail on
one of its field writes with the others landing. -/
inductive Reach : Store → Prop
  | init : Reach emptyStore
  | create (s : Store) (id : String) (data : List (String × String))
      (l t : List Op) :
      Reach s → l ++ t = createOps id data → Reach (applyOps l s)
  | createFail (s : Store) (id : String) (data : List (String × String)) (k : Nat) :
      Reach s → Reach (applyOps (createFailOps id data k) s)
  | update (s : Store) (id : String) (data : List (String × String))
      (l t : List Op) :
      Reach s → l ++ t = updateOps s id data → Reach (applyOps l s)
  | del (s : Store) (id : String) (l t : List Op) :
      Reach s → l ++ t = deleteOps s id → Reach (applyOps l s)

/-! Basic lemmas about the store primitives. -/

theorem applyOps_nil (s : Store) : applyOps [] s = s := rfl

theorem applyOps_cons (op : Op) (l : List Op) (s : Store) :
    applyOps (op :: l) s = applyOps l (op.apply s) := rfl

theorem applyOps_append (l₁ l₂ : List Op) (s : Store) :
    applyOps (l₁ ++ l₂) s = applyOps l₂ (applyOps l₁ s) :=
  List.foldl_append _ _ l₁ l₂

@[simp] theorem stats_sAdd (id : String) (s : Store) :
    ((Op.sAdd id).apply s).stats = s.stats := rfl

@[simp] theorem stats_sRem (id : String) (s : Store) :
    ((Op.sRem id).apply s).stats = s.stats := rfl

@[simp] theorem stats_hSet (id f v : String) (s : Store) :
    ((Op.hSet id f v).apply s).stats = s.stats := rfl

@[simp] theorem stats_hDel (id : String) (s : Store) :
    ((Op.hDel id).apply s).stats = s.stats := rfl

theorem stats_hIncrBy (f : String) (d : Int) (s : Store) (g : String) :
    ((Op.hIncrBy f d).apply s).stats g = if g = f then s.stats g + d else s.stats g := rfl

@[simp] theorem hashes_sAdd (id : String) (s : Store) :
    ((Op.sAdd id).apply s).hashes = s.hashes := rfl

@[simp] theorem hashes_sRem (id : String) (s : Store) :
    ((Op.sRem id).apply s).hashes = s.hashes := rfl

@[simp] theorem hashes_hIncrBy (f : String) (d : Int) (s : Store) :
    ((Op.hIncrBy f d).apply s).hashes = s.hashes := rfl

@[simp] theorem residents_hSet (id f v : String) (s : Store) :
    ((Op.hSet id f v).apply s).residents = s.residents := rfl

@[simp] theorem residents_hDel (id : String) (s : Store) :
    ((Op.hDel id).apply s).residents = s.residents := rfl

@[simp] theorem residents_hIncrBy (f : String) (d : Int) (s : Store) :
    ((Op.hIncrBy f d).apply s).residents = s.residents := rfl

theorem lookupKey_setEntry {α : Type} (l : List (String × α)) (k : String) (v : α)
    (j : String) :
    lookupKey (setEntry l k v) j = if j = k then some v else lookupKey l j := by
  induction l with
  | nil =>
    by_cases hj : j = k
    · simp [setEntry, lookupKey, hj]
    · simp [setEntry, lookupKey, hj, Ne.symm hj]
  | cons e t ih =>
    obtain ⟨a, w⟩ := e
    by_cases hak : a = k
    · subst hak
      by_cases hj : j = a
      · simp [setEntry, lookupKey, hj]
      · simp [setEntry, lookupKey, hj, Ne.symm hj]
    · by_cases haj : a = j
      · subst haj
        simp [setEntry, lookupKey, hak]
      · simp [setEntry, lookupKey, hak, haj, ih]

theorem lookupKey_delEntry {α : Type} (l : List (String × α)) (k : String)
    (j : String) :
    lookupKey (delEntry l k) j = if j = k then none else lookupKey l j := by
  induction l with
  | nil => simp [delEntry, lookupKey]
  | cons e t ih =>
    obtain ⟨a, w⟩ := e
    by_cases hak : a = k
    · subst hak
      by_cases hj : j = a
      · subst hj
        simp [delEntry, lookupKey, ih]
      · simp [delEntry, lookupKey, hj, Ne.symm hj, ih]
    · by_cases haj : a = j
      · subst haj
        simp [delEntry, lookupKey, hak, ih, Ne.symm hak]
      · simp [delEntry, lookupKey, hak, haj, ih]

theorem setEntry_ne_nil {α : Type} (l : List (String × α)) (k : String) (v : α) :
    ¬setEntry l k v = [] := by
  cases l with
  | nil => simp [setEntry]
  | cons e t =>
    obtain ⟨a, w⟩ := e
    by_cases hak : a = k <;> simp [setEntry, hak]

theorem mem_setEntry {α : Type} {l : List (String × α)} {k : String} {v : α}
    {e : String × α} (h : e ∈ setEntry l k v) : e ∈ l ∨ e = (k, v) := by
  induction l with
  | nil => simpa [setEntry] using h
  | cons a t ih =>
    obtain ⟨b, w⟩ := a
    by_cases hbk : b = k
    · subst hbk
      rcases (by simpa [setEntry] using h : e = (b, v) ∨ e ∈ t) with h1 | h1
      · exact Or.inr h1
      · exact Or.inl (List.mem_cons_of_mem _ h1)
    · rcases (by simpa [setEntry, hbk] using h : e = (b, w) ∨ e ∈ setEntry t k v) with h1 | h1
      · exact Or.inl (by simp [h1])
      · rcases ih h1 with h2 | h2
        · exact Or.inl (List.mem_cons_of_mem _ h2)
        · exact Or.inr h2

theorem mem_delEntry {α : Type} {l : List (String × α)} {k : String}
    {e : String × α} (h : e ∈ delEntry l k) : e ∈ l := by
  induction l with
  | nil => exact absurd h (by simp [delEntry])
  | cons a t ih =>
    obtain ⟨b, w⟩ := a
    by_cases hbk : b = k
    · exact List.mem_cons_of_mem _ (ih (by simpa [delEntry, hbk] using h))
    · rcases (by simpa [delEntry, hbk] using h : e = (b, w) ∨ e ∈ delEntry t k) with h1 | h1
      · exact by simp [h1]
      · exact List.mem_cons_of_mem _ (ih h1)

/-- Keys of an association list. -/
def keysOf {α : Type} (l : List (String × α)) : List String := l.map Prod.fst

theorem lookupKey_eq_none {α : Type} (l : List (String × α)) (k : String) :
    lookupKey l k = none ↔ k ∉ keysOf l := by
  induction l with
  | nil => simp [lookupKey, keysOf]
  | cons e t ih =>
    obtain ⟨a, w⟩ := e
    by_cases hak : a = k
    · subst hak
      simp [lookupKey, keysOf]
    · simp [lookupKey, keysOf, hak, Ne.symm hak]
      simpa [keysOf] using ih

/-! HGETALL after each kind of operation. -/

theorem hGetAll_sAdd (id j : String) (s : Store) :
    hGetAll ((Op.sAdd id).apply s) j = hGetAll s j := rfl

theorem hGetAll_sRem (id j : String) (s : Store) :
    hGetAll ((Op.sRem id).apply s) j = hGetAll s j := rfl

theorem hGetAll_hIncrBy (f : String) (d : Int) (j : String) (s : Store) :
    hGetAll ((Op.hIncrBy f d).apply s) j = hGetAll s j := rfl

theorem hGetAll_hSet (id f v j : String) (s : Store) :
    hGetAll ((Op.hSet id f v).apply s) j =
      if j = id then setEntry (hGetAll s id) f v else hGetAll s j := by
  show (lookupKey (setEntry s.hashes id (setEntry (hGetAll s id) f v)) j).getD [] = _
  rw [lookupKey_setEntry]
  by_cases hj : j = id <;> simp [hj, hGetAll]

theorem hGetAll_hDel (id j : String) (s : Store) :
    hGetAll ((Op.hDel id).apply s) j = if j = id then [] else hGetAll s j := by
  show (lookupKey (delEntry s.hashes id) j).getD [] = _
  rw [lookupKey_delEntry]
  by_cases hj : j = id <;> simp [hj, hGetAll]

/-! The no-orphan-hash invariant on reachable states. -/

/-- Every identifier whose resident hash is non-empty is a member of the
residents set. -/
def noOrphan (s : Store) : Prop := ∀ id, ¬hGetAll s id = [] → id ∈ s.residents

/-- An operation performed by a handler after it has added (or checked)
membership of id: a field write on the hash of id, or a stats update. -/
def benign (id : String) (op : Op) : Prop :=
  (∃ f v, op = Op.hSet id f v) ∨ (∃ f d, op = Op.hIncrBy f d)

theorem benign_apply {id : String} {op : Op} {s : Store} (hb : benign id op)
    (hP : noOrphan s) (hm : id ∈ s.residents) :
    noOrphan (op.apply s) ∧ id ∈ (op.apply s).residents := by
  rcases hb with ⟨f, v, rfl⟩ | ⟨f, d, rfl⟩
  · refine ⟨?_, hm⟩
    intro j hj
    rw [hGetAll_hSet] at hj
    by_cases hji : j = id
    · subst hji
      exact hm
    · rw [if_neg hji] at hj
      exact hP j hj
  · exact ⟨fun j hj => hP j hj, hm⟩

theorem benign_applyOps {id : String} :
    ∀ (l : List Op) (s : Store), (∀ op ∈ l, benign id op) → noOrphan s →
      id ∈ s.residents → noOrphan (applyOps l s) ∧ id ∈ (applyOps l s).residents
  | [], s, _, hP, hm => ⟨hP, hm⟩
  | op :: l, s, hb, hP, hm => by
    rw [applyOps_cons]
    obtain ⟨hP1, hm1⟩ := benign_apply (hb op (List.mem_cons_self op l)) hP hm
    exact benign_applyOps l _ (fun o ho => hb o (List.mem_cons_of_mem _ ho)) hP1 hm1

theorem incrs_applyOps :
    ∀ (l : List Op) (s : Store), (∀ op ∈ l, ∃ f d, op = Op.hIncrBy f d) →
      (applyOps l s).hashes = s.hashes ∧ (applyOps l s).residents = s.residents
  | [], _, _ => ⟨rfl, rfl⟩
  | op :: l, s, h => by
    obtain ⟨f, d, rfl⟩ := h op (List.mem_cons_self op l)
    rw [applyOps_cons]
    obtain ⟨h1, h2⟩ := incrs_applyOps l ((Op.hIncrBy f d).apply s)
      (fun o ho => h o (List.mem_cons_of_mem _ ho))
    exact ⟨h1.trans rfl, h2.trans rfl⟩

theorem mem_sAdd_self (id : String) (s : Store) :
    id ∈ ((Op.sAdd id).apply s).residents := by
  show id ∈ (if id ∈ s.residents then s.residents else s.residents ++ [id])
  by_cases h : id ∈ s.residents
  · rw [if_pos h]
    exact h
  · simp [h]

theorem noOrphan_sAdd (id : String) {s : Store} (hP : noOrphan s) :
    noOrphan ((Op.sAdd id).apply s) := by
  intro j hj
  rw [hGetAll_sAdd] at hj
  show j ∈ (if id ∈ s.residents then s.residents else s.residents ++ [id])
  by_cases h : id ∈ s.residents
  · simpa [h] using hP j hj
  · simp [h]
    exact Or.inl (hP j hj)

theorem createStatsOps_incrs (data : List (String × String)) :
    ∀ op ∈ createStatsOps data, ∃ f d, op = Op.hIncrBy f d := by
  intro op hop
  rcases List.mem_append.mp hop with h1 | h1
  · rcases List.mem_append.mp h1 with h2 | h2
    · exact ⟨_, _, (List.mem_singleton.mp h2)⟩
    · revert h2
      split
      · intro h2
        exact ⟨_, _, (List.mem_singleton.mp h2)⟩
      · intro h2
        exact absurd h2 (List.not_mem_nil op)
  · revert h1
    split
    · split
      · intro h1
        exact absurd h1 (List.not_mem_nil op)
      · intro h1
        exact ⟨_, _, (List.mem_singleton.mp h1)⟩
    · intro h1
      exact absurd h1 (List.not_mem_nil op)

theorem createOps_tail_benign (id : String) (data : List (String × String)) :
    ∀ op ∈ (data.map fun kv => Op.hSet id kv.1 kv.2) ++ createStatsOps data,
      benign id op := by
  intro op hop
  rcases List.mem_append.mp hop with h1 | h1
  · obtain ⟨kv, _, rfl⟩ := List.mem_map.mp h1
    exact Or.inl ⟨kv.1, kv.2, rfl⟩
  · exact Or.inr (createStatsOps_incrs data op h1)

theorem deleteStatsOps_incrs (r : List (String × String)) :
    ∀ op ∈ deleteStatsOps r, ∃ f d, op = Op.hIncrBy f d := by
  intro op hop
  rcases List.mem_append.mp hop with h1 | h1
  · rcases List.mem_cons.mp h1 with h2 | h2
    · exact ⟨_, _, h2⟩
    · exact ⟨_, _, List.mem_singleton.mp h2⟩
  · revert h1
    split
    · intro h1
      exact ⟨_, _, List.mem_singleton.mp h1⟩
    · intro h1
      exact absurd h1 (List.not_mem_nil op)

theorem voterDeltaOps_incrs (c v : String) :
    ∀ op ∈ voterDeltaOps c v, ∃ f d, op = Op.hIncrBy f d := by
  intro op hop
  rcases List.mem_append.mp hop with h1 | h1 <;> revert h1 <;> split <;> intro h1 <;>
    first
      | exact ⟨_, _, List.mem_singleton.mp h1⟩
      | exact absurd h1 (List.not_mem_nil op)

theorem updateVoterOps_incrs (cur uv : Option String) :
    ∀ op ∈ updateVoterOps cur uv, ∃ f d, op = Op.hIncrBy f d := by
  intro op hop
  rcases cur with _ | c
  · rcases uv with _ | v <;> exact absurd hop (List.not_mem_nil op)
  · rcases uv with _ | v
    · exact absurd hop (List.not_mem_nil op)
    · rw [updateVoterOps] at hop
      revert hop
      split
      · intro hop
        exact absurd hop (List.not_mem_nil op)
      · split
        · intro hop
          exact absurd hop (List.not_mem_nil op)
        · intro hop
          exact voterDeltaOps_incrs c v op hop

theorem hGetAll_congr {s₁ s₂ : Store} (h : s₁.hashes = s₂.hashes) (j : String) :
    hGetAll s₁ j = hGetAll s₂ j := by
  unfold hGetAll
  rw [h]

theorem noOrphan_incrs (l : List Op) (s : Store)
    (h : ∀ op ∈ l, ∃ f d, op = Op.hIncrBy f d) (hP : noOrphan s) :
    noOrphan (applyOps l s) := by
  obtain ⟨h1, h2⟩ := incrs_applyOps l s h
  intro j hj
  rw [h2]
  exact hP j (by rwa [hGetAll_congr h1 j] at hj)

/-- Every reachable state, including states of interrupted creates, updates
and deletes, satisfies the no-orphan-hash invariant. -/
theorem reach_inv : ∀ {s : Store}, Reach s → noOrphan s := by
  intro s h
  induction h with
  | init =>
    intro id hid
    exact absurd rfl hid
  | create s id data l t hR hEq ih =>
    cases l with
    | nil => exact ih
    | cons op l1 =>
      rw [createOps, List.cons_append] at hEq
      obtain ⟨rfl, hEq1⟩ : op = Op.sAdd id ∧ l1 ++ t = _ := by
        constructor
        · exact (List.cons.injEq _ _ _ _ ▸ hEq).1
        · exact (List.cons.injEq _ _ _ _ ▸ hEq).2
      rw [applyOps_cons]
      refine (benign_applyOps l1 _ ?_ (noOrphan_sAdd id ih) (mem_sAdd_self id s)).1
      intro o ho
      exact createOps_tail_benign id data o (hEq1 ▸ List.mem_append_left t ho)
  | createFail s id data k hR ih =>
    rw [createFailOps, applyOps_cons]
    refine (benign_applyOps _ _ ?_ (noOrphan_sAdd id ih) (mem_sAdd_self id s)).1
    intro o ho
    obtain ⟨kv, _, rfl⟩ := List.mem_map.mp ho
    exact Or.inl ⟨kv.1, kv.2, rfl⟩
  | update s id data l t hR hEq ih =>
    by_cases hmem : id ∈ s.residents
    · by_cases hthr :
        updateThrows (lookupKey (hGetAll s id) "votersStatus")
          (lookupKey data "votersStatus") = true
      · rw [updateOps, if_pos hmem, if_pos hthr] at hEq
        obtain rfl : l = [] := (List.append_eq_nil.mp hEq).1
        exact ih
      · rw [updateOps, if_pos hmem, if_neg hthr] at hEq
        refine (benign_applyOps l s ?_ ih hmem).1
        intro o ho
        have ho2 := hEq ▸ List.mem_append_left t ho
        rcases List.mem_append.mp ho2 with h1 | h1
        · exact Or.inr (updateVoterOps_incrs _ _ o h1)
        · obtain ⟨kv, _, rfl⟩ := List.mem_map.mp h1
          exact Or.inl ⟨kv.1, kv.2, rfl⟩
    · rw [updateOps, if_neg hmem] at hEq
      obtain rfl : l = [] := (List.append_eq_nil.mp hEq).1
      exact ih
  | del s id l t hR hEq ih =>
    by_cases hemp : hGetAll s id = []
    · rw [deleteOps, if_pos hemp] at hEq
      obtain rfl : l = [] := (List.append_eq_nil.mp hEq).1
      exact ih
    · rw [deleteOps, if_neg hemp] at hEq
      cases l with
      | nil => exact ih
      | cons op l1 =>
        rw [List.cons_append] at hEq
        obtain ⟨rfl, hEq1⟩ : op = Op.hDel id ∧ l1 ++ t = _ := by
          constructor
          · exact (List.cons.injEq _ _ _ _ ▸ hEq).1
          · exact (List.cons.injEq _ _ _ _ ▸ hEq).2
        rw [applyOps_cons]
        have hP1 : noOrphan ((Op.hDel id).apply s) := by
          intro j hj
          rw [hGetAll_hDel] at hj
          by_cases hji : j = id
          · rw [if_pos hji] at hj
            exact absurd rfl hj
          · rw [if_neg hji] at hj
            exact ih j hj
        have hid1 : hGetAll ((Op.hDel id).apply s) id = [] := by
          rw [hGetAll_hDel, if_pos rfl]
        cases l1 with
        | nil => exact hP1
        | cons op2 l2 =>
          rw [List.cons_append] at hEq1
          obtain ⟨rfl, hEq2⟩ : op2 = Op.sRem id ∧ l2 ++ t = _ := by
            constructor
            · exact (List.cons.injEq _ _ _ _ ▸ hEq1).1
            · exact (List.cons.injEq _ _ _ _ ▸ hEq1).2
          rw [applyOps_cons]
          have hP2 : noOrphan ((Op.sRem id).apply ((Op.hDel id).apply s)) := by
            intro j hj
            rw [hGetAll_sRem] at hj
            by_cases hji : j = id
            · subst hji
              exact absurd hid1 hj
            · exact (List.mem_erase_of_ne hji).mpr (hP1 j hj)
          refine noOrphan_incrs l2 _ ?_ hP2
          intro o ho
          exact deleteStatsOps_incrs _ o (hEq2 ▸ List.mem_append_left t ho)

/-! Sample states used by witnesses and counterexamples. -/

/-- Store after one completed create of resident a with one field. -/
def storeA : Store := (createResident emptyStore "a" [("firstName", "Juan")]).2

theorem reach_storeA : Reach storeA := by
  show Reach (applyOps (createOps "a" [("firstName", "Juan")]) emptyStore)
  exact Reach.create emptyStore "a" _ _ [] Reach.init (List.append_nil _)

/-- Store after that create followed by a delete of a interrupted between
its two store operations: DEL ran, SREM did not. -/
def storeAdelStuck : Store := applyOps [Op.hDel "a"] storeA

theorem reach_storeAdelStuck : Reach storeAdelStuck := by
  show Reach (applyOps [Op.hDel "a"] storeA)
  exact Reach.del storeA "a" [Op.hDel "a"]
    [Op.sRem "a", Op.hIncrBy "totalResidents" (-1),
     Op.hIncrBy "residents:undefined" (-1)]
    reach_storeA (by decide)

/-- C1: the hash-iff-membership invariant fails on the code: a delete
interrupted between DEL and SREM leaves a reachable state in which the
identifier is still a member of the residents set while its hash is empty. -/
theorem C1_counterexample :
    Reach storeAdelStuck ∧
    ¬((¬hGetAll storeAdelStuck "a" = []) ↔ "a" ∈ storeAdelStuck.residents) :=
  ⟨reach_storeAdelStuck, by decide⟩

/-- C1 (amended): in every reachable state, including states of interrupted
creates and deletes, an identifier whose resident hash is non-empty is a
member of the residents set (no orphaned hashes); the converse direction
fails in interrupted states, which may hold dangling set entries. -/
theorem C1_no_orphan (s : Store) (hs : Reach s) (id : String)
    (h : ¬hGetAll s id = []) : id ∈ s.residents := reach_inv hs id h

theorem C1_witness : "a" ∈ storeA.residents :=
  C1_no_orphan storeA reach_storeA "a" (by decide)

/-- C6: on every reachable state, get answers NotFound exactly when the
resident hash is empty or the id is not a member of the membership set, and
get after delete always answers NotFound. -/
theorem C6_get_contract :
    (∀ s, Reach s → ∀ id,
      (getResident s id = none ↔ (hGetAll s id = [] ∨ id ∉ s.residents))) ∧
    (∀ s id, getResident (deleteResident s id).2 id = none) := by
  constructor
  · intro s hs id
    constructor
    · intro h
      by_cases hemp : hGetAll s id = []
      · exact Or.inl hemp
      · rw [getResident, if_neg hemp] at h
        exact absurd h (by simp)
    · intro h
      have hemp : hGetAll s id = [] := by
        rcases h with h | h
        · exact h
        · by_contra hne
          exact h (reach_inv hs id hne)
      rw [getResident, if_pos hemp]
  · intro s id
    show getResident (applyOps (deleteOps s id) s) id = none
    by_cases hemp : hGetAll s id = []
    · rw [deleteOps, if_pos hemp, applyOps_nil, getResident, if_pos hemp]
    · rw [deleteOps, if_neg hemp, applyOps_cons, applyOps_cons]
      have hids :
          hGetAll (applyOps (deleteStatsOps (hGetAll s id))
            ((Op.sRem id).apply ((Op.hDel id).apply s))) id = [] := by
        have h1 := (incrs_applyOps (deleteStatsOps (hGetAll s id))
          ((Op.sRem id).apply ((Op.hDel id).apply s)) (deleteStatsOps_incrs _)).1
        rw [hGetAll_congr h1 id, hGetAll_sRem, hGetAll_hDel, if_pos rfl]
      rw [getResident, if_pos hids]

theorem C6_witness :
    (getResident emptyStore "a" = none ↔
      (hGetAll emptyStore "a" = [] ∨ "a" ∉ emptyStore.residents)) ∧
    getResident (deleteResident emptyStore "b").2 "b" = none :=
  ⟨C6_get_contract.1 emptyStore Reach.init "a", C6_get_contract.2 emptyStore "b"⟩

/-! Stats arithmetic: the effect of an operation list on one counter field. -/

/-- Contribution of one atomic operation to the stats field q. -/
def fieldDelta (q : String) : Op → Int
  | Op.hIncrBy f d => if q = f then d else 0
  | _ => 0

theorem stats_applyOps (q : String) :
    ∀ (l : List Op) (s : Store),
      (applyOps l s).stats q = s.stats q + (l.map (fieldDelta q)).sum
  | [], s => by simp [applyOps_nil]
  | op :: l, s => by
    rw [applyOps_cons, stats_applyOps q l, List.map_cons, List.sum_cons]
    have hop : (op.apply s).stats q = s.stats q + fieldDelta q op := by
      cases op with
      | sAdd id => simp [fieldDelta]
      | sRem id => simp [fieldDelta]
      | hSet id f v => simp [fieldDelta]
      | hDel id => simp [fieldDelta]
      | hIncrBy f d =>
        rw [stats_hIncrBy]
        by_cases hq : q = f
        · simp [fieldDelta, hq]
        · simp [fieldDelta, hq]
    rw [hop]
    ring

theorem sum_map_zero {α : Type} (l : List α) : (l.map fun _ => (0 : Int)).sum = 0 := by
  induction l with
  | nil => rfl
  | cons a t ih => simp [ih]

theorem residents_colon_ne (p : String) : ¬("residents:" ++ p = "totalResidents") := by
  intro h
  have h1 : ("residents:" ++ p).data = "totalResidents".data := congrArg String.data h
  rw [String.data_append] at h1
  have h2 := congrArg (List.take ("residents:".data.length)) h1
  rw [List.take_left] at h2
  exact absurd h2 (by decide)

theorem residents_colon_ne_voters (p : String) : ¬("residents:" ++ p = "totalVoters") := by
  intro h
  have h1 : ("residents:" ++ p).data = "totalVoters".data := congrArg String.data h
  rw [String.data_append] at h1
  have h2 := congrArg (List.take ("residents:".data.length)) h1
  rw [List.take_left] at h2
  exact absurd h2 (by decide)

/-- C9: deleting an existing resident whose record has no purok field still
decrements the counters-row field literally named residents:undefined by 1,
while a create whose request has no purok field applies no such increment. -/
theorem C9_undefined_purok (s : Store) (id : String)
    (hne : ¬hGetAll s id = []) (hpk : lookupKey (hGetAll s id) "purok" = none) :
    (deleteResident s id).2.stats "residents:undefined" =
      s.stats "residents:undefined" - 1 ∧
    (∀ data, lookupKey data "purok" = none →
      (createResident s id data).2.stats "residents:undefined" =
        s.stats "residents:undefined") := by
  have hq1 : ¬(("residents:undefined" : String) = "totalResidents") := by decide
  have hq2 : ¬(("residents:undefined" : String) = "totalVoters") := by decide
  have hq3 : ("residents:" ++ "undefined" : String) = "residents:undefined" := by decide
  constructor
  · show (applyOps (deleteOps s id) s).stats "residents:undefined" = _
    rw [stats_applyOps, deleteOps, if_neg hne, deleteStatsOps, hpk]
    have hgd : (none : Option String).getD "undefined" = "undefined" := rfl
    rw [hgd, hq3]
    by_cases hv : lookupKey (hGetAll s id) "votersStatus" = some "Registered"
    · rw [if_pos hv]
      simp [fieldDelta, hq1, hq2]
      omega
    · rw [if_neg hv]
      simp [fieldDelta, hq1]
      omega
  · intro data hdp
    show (applyOps (createOps id data) s).stats "residents:undefined" = _
    rw [stats_applyOps, createOps, createStatsOps, hdp]
    by_cases hv : (lookupKey data "votersStatus").map lowerStr = some "registered"
    · rw [if_pos hv]
      simp [fieldDelta, hq1, hq2, List.map_map]
      exact sum_map_zero data
    · rw [if_neg hv]
      simp [fieldDelta, hq1, List.map_map]
      exact sum_map_zero data

theorem C9_witness :
    (deleteResident storeA "a").2.stats "residents:undefined" =
      storeA.stats "residents:undefined" - 1 :=
  (C9_undefined_purok storeA "a" (by decide) (by decide)).1

/-- C10: the claim fails as stated: an update carrying votersStatus with the
empty-string value on a record with no stored votersStatus does not error;
the empty string is falsy in the handler guard, so the request succeeds. -/
theorem C10_counterexample :
    "a" ∈ storeA.residents ∧
    lookupKey (hGetAll storeA "a") "votersStatus" = none ∧
    (updateResident storeA "a" [("votersStatus", "")]).1 = Outcome.ok := by
  refine ⟨by decide, by decide, by decide⟩

/-- C10 (amended): for an existing resident whose stored hash has no
votersStatus field, an update carrying a non-empty votersStatus value
answers 500 (the handler throws on toLowerCase of undefined before any
write), and the store is left completely unchanged. -/
theorem C10_missing_status_update (s : Store) (id : String)
    (data : List (String × String)) (v : String)
    (hmem : id ∈ s.residents)
    (hcur : lookupKey (hGetAll s id) "votersStatus" = none)
    (hreq : lookupKey data "votersStatus" = some v) (hv : ¬v = "") :
    (updateResident s id data).1 = Outcome.serverError ∧
    (updateResident s id data).2 = s := by
  have hthr : updateThrows (lookupKey (hGetAll s id) "votersStatus")
      (lookupKey data "votersStatus") = true := by
    rw [hcur, hreq]
    simp [updateThrows, hv]
  constructor
  · show updateOutcome s id data = _
    rw [updateOutcome, if_pos hmem, if_pos hthr]
  · show applyOps (updateOps s id data) s = s
    rw [updateOps, if_pos hmem, if_pos hthr, applyOps_nil]

theorem C10_witness :
    (updateResident storeA "a" [("votersStatus", "Registered")]).1 =
      Outcome.serverError ∧
    (updateResident storeA "a" [("votersStatus", "Registered")]).2 = storeA :=
  C10_missing_status_update storeA "a" [("votersStatus", "Registered")] "Registered"
    (by decide) (by decide) (by decide) (by decide)

/-! Frame reasoning for updates. -/

theorem frame_applyOps (id fld : String) :
    ∀ (l : List Op) (s : Store),
      (∀ op ∈ l,
        (∃ f v, op = Op.hSet id f v ∧ ¬f = fld) ∨ (∃ f d, op = Op.hIncrBy f d)) →
      lookupKey (hGetAll (applyOps l s) id) fld = lookupKey (hGetAll s id) fld
  | [], _, _ => rfl
  | op :: l, s, h => by
    rw [applyOps_cons]
    rw [frame_applyOps id fld l (op.apply s)
      (fun o ho => h o (List.mem_cons_of_mem _ ho))]
    rcases h op (List.mem_cons_self op l) with ⟨f, v, rfl, hne⟩ | ⟨f, d, rfl⟩
    · rw [hGetAll_hSet, if_pos rfl, lookupKey_setEntry,
        if_neg (fun hh => hne hh.symm)]
    · rw [hGetAll_hIncrBy]

/-- C7: an update overwrites only the field names carried by the request:
any field omitted from the request keeps its previous stored value. -/
theorem C7_update_frame (s : Store) (id : String) (data : List (String × String))
    (fld : String) (hmem : id ∈ s.residents) (hfld : fld ∉ keysOf data) :
    lookupKey (hGetAll (updateResident s id data).2 id) fld =
      lookupKey (hGetAll s id) fld := by
  show lookupKey (hGetAll (applyOps (updateOps s id data) s) id) fld = _
  apply frame_applyOps
  intro op hop
  rw [updateOps, if_pos hmem] at hop
  revert hop
  split
  · intro hop
    exact absurd hop (List.not_mem_nil op)
  · intro hop
    rcases List.mem_append.mp hop with h1 | h1
    · exact Or.inr (updateVoterOps_incrs _ _ op h1)
    · obtain ⟨kv, hkv, rfl⟩ := List.mem_map.mp h1
      refine Or.inl ⟨kv.1, kv.2, rfl, ?_⟩
      intro hq
      exact hfld (hq ▸ List.mem_map.mpr ⟨kv, hkv, rfl⟩)

theorem C7_witness :
    lookupKey (hGetAll (updateResident storeA "a" [("lastName", "Cruz")]).2 "a")
        "firstName" =
      lookupKey (hGetAll storeA "a") "firstName" :=
  C7_update_frame storeA "a" [("lastName", "Cruz")] "firstName"
    (by decide) (by decide)

/-- Store after creating resident b with a lower-case registered status. -/
def storeRegLower : Store :=
  (createResident emptyStore "b" [("votersStatus", "registered")]).2

/-- C4: the code violates the claim: a resident stored with the lower-case
value registered is counted into totalVoters at creation (case-insensitive
check) but its deletion does not decrement totalVoters, because the delete
handler compares the snapshot against the exact string Registered. -/
theorem C4_code_eval :
    storeRegLower.stats "totalVoters" = 1 ∧
    (deleteResident storeRegLower "b").1 = Outcome.ok ∧
    (deleteResident storeRegLower "b").2.stats "totalVoters" = 1 := by
  refine ⟨by decide, by decide, by decide⟩

/-- C5: the code violates the claim: when the second field write of a create
fails, the handler answers 500 but performs no rollback: the identifier
stays in the membership set and the first field remains stored, so the
partial record is observable. -/
theorem C5_code_eval :
    (createResidentFail emptyStore "a" [("firstName", "Juan"), ("lastName", "Cruz")] 1).1 =
      Outcome.serverError ∧
    "a" ∈ (createResidentFail emptyStore "a"
      [("firstName", "Juan"), ("lastName", "Cruz")] 1).2.residents ∧
    hGetAll (createResidentFail emptyStore "a"
      [("firstName", "Juan"), ("lastName", "Cruz")] 1).2 "a" =
      [("firstName", "Juan")] := by
  refine ⟨by decide, by decide, by decide⟩

/-! GET /analytics/residents recomputes counts by scanning. -/

/-- The stored votersStatus of id lower-cases to registered (default empty). -/
def isRegLower (s : Store) (id : String) : Bool :=
  decide (lowerStr ((lookupKey (hGetAll s id) "votersStatus").getD "") = "registered")

/-- The stored votersStatus of id lower-cases to not-registered. -/
def isNotRegLower (s : Store) (id : String) : Bool :=
  decide (lowerStr ((lookupKey (hGetAll s id) "votersStatus").getD "") = "not-registered")

theorem analyticsLoop (s : Store) :
    ∀ (l : List String) (acc : ResidentAnalytics),
      (l.foldl (residentAnalyticsStep s) acc).totalResidents = acc.totalResidents ∧
      (l.foldl (residentAnalyticsStep s) acc).votersCount =
        acc.votersCount + l.countP (isRegLower s) ∧
      (l.foldl (residentAnalyticsStep s) acc).nonVotersCount =
        acc.nonVotersCount + l.countP (isNotRegLower s)
  | [], acc => by simp
  | a :: t, acc => by
    obtain ⟨h1, h2, h3⟩ := analyticsLoop s t (residentAnalyticsStep s acc a)
    rw [List.foldl_cons]
    refine ⟨?_, ?_, ?_⟩
    · rw [h1]
      rfl
    · rw [h2, List.countP_cons]
      by_cases h : lowerStr ((lookupKey (hGetAll s a) "votersStatus").getD "") =
          "registered"
      · have hb : isRegLower s a = true := by simp [isRegLower, h]
        have hstep : (residentAnalyticsStep s acc a).votersCount =
            acc.votersCount + 1 := by
          simp [residentAnalyticsStep, h]
        rw [hstep, hb]
        simp
        omega
      · have hb : isRegLower s a = false := by simp [isRegLower, h]
        have hstep : (residentAnalyticsStep s acc a).votersCount =
            acc.votersCount := by
          simp [residentAnalyticsStep, h]
        rw [hstep, hb]
        simp
    · rw [h3, List.countP_cons]
      by_cases h : lowerStr ((lookupKey (hGetAll s a) "votersStatus").getD "") =
          "not-registered"
      · have hb : isNotRegLower s a = true := by simp [isNotRegLower, h]
        have hstep : (residentAnalyticsStep s acc a).nonVotersCount =
            acc.nonVotersCount + 1 := by
          simp [residentAnalyticsStep, h]
        rw [hstep, hb]
        simp
        omega
      · have hb : isNotRegLower s a = false := by simp [isNotRegLower, h]
        have hstep : (residentAnalyticsStep s acc a).nonVotersCount =
            acc.nonVotersCount := by
          simp [residentAnalyticsStep, h]
        rw [hstep, hb]
        simp

/-- C2 (amended): GET /analytics/residents does not read the counters row:
it returns totalResidents equal to the cardinality of the membership set
and voter counts recomputed by scanning each membership entry's hash with
case-insensitive comparison. -/
theorem C2_scan_semantics (s : Store) :
    (getAnalyticsResidents s).totalResidents = s.residents.length ∧
    (getAnalyticsResidents s).votersCount = s.residents.countP (isRegLower s) ∧
    (getAnalyticsResidents s).nonVotersCount =
      s.residents.countP (isNotRegLower s) := by
  obtain ⟨h1, h2, h3⟩ := analyticsLoop s s.residents
    { totalResidents := s.residents.length, maleCount := 0, femaleCount := 0,
      votersCount := 0, nonVotersCount := 0 }
  exact ⟨h1, by simpa using h2, by simpa using h3⟩

/-- Store reached by a create of a interrupted right after its first store
operation SADD: the membership set holds a, the stats row is untouched. -/
def storeSAddOnly : Store := applyOps [Op.sAdd "a"] emptyStore

theorem reach_storeSAddOnly : Reach storeSAddOnly := by
  show Reach (applyOps [Op.sAdd "a"] emptyStore)
  exact Reach.create emptyStore "a" [("firstName", "Juan")] [Op.sAdd "a"]
    [Op.hSet "a" "firstName" "Juan", Op.hIncrBy "totalResidents" 1]
    Reach.init (by decide)

/-- C2: the claim fails on the code: in a reachable state GET
/analytics/residents answers totalResidents 1 while the counters row stores
totalResidents 0, so the endpoint does not return the stats-row values. -/
theorem C2_counterexample :
    Reach storeSAddOnly ∧
    (getAnalyticsResidents storeSAddOnly).totalResidents = 1 ∧
    storeSAddOnly.stats "totalResidents" = 0 ∧
    ¬(((getAnalyticsResidents storeSAddOnly).totalResidents : Int) =
      storeSAddOnly.stats "totalResidents") :=
  ⟨reach_storeSAddOnly, by decide, by decide, by decide⟩

/-! One create contributes exactly one +1 to totalResidents. -/

theorem purok_ops_tr_sum (o : Option String) :
    ((match o with
      | some p => if p = "" then [] else [Op.hIncrBy ("residents:" ++ p) 1]
      | none => ([] : List Op)).map (fieldDelta "totalResidents")).sum = 0 := by
  cases o with
  | none => rfl
  | some p =>
    show ((if p = "" then ([] : List Op)
      else [Op.hIncrBy ("residents:" ++ p) 1]).map
        (fieldDelta "totalResidents")).sum = 0
    by_cases hp : p = ""
    · rw [if_pos hp]
      rfl
    · rw [if_neg hp]
      simp [fieldDelta, Ne.symm (residents_colon_ne p)]

theorem purok_ops_count (o : Option String) :
    (match o with
      | some p => if p = "" then [] else [Op.hIncrBy ("residents:" ++ p) 1]
      | none => ([] : List Op)).countP
      (fun op => decide (op = Op.hIncrBy "totalResidents" 1)) = 0 := by
  cases o with
  | none => rfl
  | some p =>
    show (if p = "" then ([] : List Op)
      else [Op.hIncrBy ("residents:" ++ p) 1]).countP
        (fun op => decide (op = Op.hIncrBy "totalResidents" 1)) = 0
    by_cases hp : p = ""
    · rw [if_pos hp]
      rfl
    · rw [if_neg hp, List.countP_eq_zero]
      intro op hop
      rw [List.mem_singleton.mp hop]
      simp [residents_colon_ne p]

theorem createOps_tr_sum (id : String) (data : List (String × String)) :
    ((createOps id data).map (fieldDelta "totalResidents")).sum = 1 := by
  have htv : ¬(("totalResidents" : String) = "totalVoters") := by decide
  rw [createOps, List.map_cons, List.sum_cons, List.map_append, List.sum_append]
  have h1 : ((data.map fun kv => Op.hSet id kv.1 kv.2).map
      (fieldDelta "totalResidents")).sum = 0 := by
    rw [List.map_map]
    exact sum_map_zero data
  have h2 : ((createStatsOps data).map (fieldDelta "totalResidents")).sum = 1 := by
    rw [createStatsOps, List.map_append, List.sum_append, List.map_append,
      List.sum_append]
    have hv : ((if (lookupKey data "votersStatus").map lowerStr = some "registered"
        then [Op.hIncrBy "totalVoters" 1] else []).map
        (fieldDelta "totalResidents")).sum = 0 := by
      split
      · simp [fieldDelta, htv]
      · rfl
    rw [hv, purok_ops_tr_sum]
    simp [fieldDelta]
  rw [h1, h2]
  simp [fieldDelta]

theorem createOps_count_incr (id : String) (data : List (String × String)) :
    (createOps id data).countP
      (fun op => decide (op = Op.hIncrBy "totalResidents" 1)) = 1 := by
  rw [createOps, List.countP_cons, List.countP_append]
  have h1 : (data.map fun kv => Op.hSet id kv.1 kv.2).countP
      (fun op => decide (op = Op.hIncrBy "totalResidents" 1)) = 0 := by
    rw [List.countP_eq_zero]
    intro op hop
    obtain ⟨kv, _, rfl⟩ := List.mem_map.mp hop
    simp
  have h2 : (createStatsOps data).countP
      (fun op => decide (op = Op.hIncrBy "totalResidents" 1)) = 1 := by
    rw [createStatsOps, List.countP_append, List.countP_append]
    have hv : (if (lookupKey data "votersStatus").map lowerStr = some "registered"
        then [Op.hIncrBy "totalVoters" 1] else []).countP
        (fun op => decide (op = Op.hIncrBy "totalResidents" 1)) = 0 := by
      split
      · decide
      · rfl
    rw [hv, purok_ops_count]
    decide
  rw [h1, h2]
  simp

theorem flatten_creates_tr_sum :
    ∀ creates : List (String × List (String × String)),
      (((creates.map fun c => createOps c.1 c.2).flatten.map
        (fieldDelta "totalResidents")).sum : Int) = (creates.length : Int)
  | [] => rfl
  | c :: t => by
    rw [List.map_cons, List.flatten_cons, List.map_append, List.sum_append,
      createOps_tr_sum, flatten_creates_tr_sum t, List.length_cons]
    push_cast
    ring

/-- C8: for any collection of creates with distinct identifiers, each create
performs exactly one +1 increment of totalResidents, and any interleaving of
their atomic store operations (every interleaving is a permutation of their
concatenation) ends, from the empty store, with the incremental
totalResidents counter equal to the number of creates. -/
theorem C8_concurrent_creates (creates : List (String × List (String × String)))
    (tr : List Op) (_hids : (creates.map Prod.fst).Nodup)
    (htr : tr.Perm ((creates.map fun c => createOps c.1 c.2).flatten)) :
    (∀ c ∈ creates, (createOps c.1 c.2).countP
      (fun op => decide (op = Op.hIncrBy "totalResidents" 1)) = 1) ∧
    (applyOps tr emptyStore).stats "totalResidents" = (creates.length : Int) := by
  constructor
  · intro c _
    exact createOps_count_incr c.1 c.2
  · rw [stats_applyOps]
    have hsum := (htr.map (fieldDelta "totalResidents")).sum_eq
    rw [hsum, flatten_creates_tr_sum creates]
    show 0 + _ = _
    ring

/-- Two creates with distinct ids used by the C8 witness. -/
def twoCreates : List (String × List (String × String)) :=
  [("a", [("firstName", "Juan")]), ("b", [("purok", "1")])]

theorem C8_witness :
    (∀ c ∈ twoCreates, (createOps c.1 c.2).countP
      (fun op => decide (op = Op.hIncrBy "totalResidents" 1)) = 1) ∧
    (applyOps (createOps "b" [("purok", "1")] ++ createOps "a" [("firstName", "Juan")])
      emptyStore).stats "totalResidents" = (twoCreates.length : Int) :=
  C8_concurrent_creates twoCreates
    (createOps "b" [("purok", "1")] ++ createOps "a" [("firstName", "Juan")])
    (by decide) (by decide)

/-! Key bookkeeping for the hash namespace. -/

theorem lookupKey_mem {α : Type} {k : String} {v : α} :
    ∀ {l : List (String × α)}, lookupKey l k = some v → (k, v) ∈ l := by
  intro l
  induction l with
  | nil =>
    intro h
    simp [lookupKey] at h
  | cons e t ih =>
    obtain ⟨j, w⟩ := e
    intro h
    rw [lookupKey] at h
    by_cases hjk : j = k
    · rw [if_pos hjk] at h
      injection h with h2
      subst hjk
      subst h2
      exact List.mem_cons_self _ _
    · rw [if_neg hjk] at h
      exact List.mem_cons_of_mem _ (ih h)

theorem mem_keysOf_setEntry {α : Type} {l : List (String × α)} {k : String} {v : α}
    {j : String} (h : j ∈ keysOf (setEntry l k v)) : j ∈ keysOf l ∨ j = k := by
  obtain ⟨e, he, rfl⟩ := List.mem_map.mp h
  rcases mem_setEntry he with h1 | h1
  · exact Or.inl (List.mem_map.mpr ⟨e, h1, rfl⟩)
  · right
    rw [h1]

theorem nodup_keysOf_setEntry {α : Type} {k : String} {v : α} :
    ∀ {l : List (String × α)}, (keysOf l).Nodup → (keysOf (setEntry l k v)).Nodup := by
  intro l
  induction l with
  | nil =>
    intro _
    simp [setEntry, keysOf]
  | cons e t ih =>
    obtain ⟨j, w⟩ := e
    intro hnd
    have hj : j ∉ keysOf t := (List.nodup_cons.mp (by simpa [keysOf] using hnd)).1
    have ht : (keysOf t).Nodup := (List.nodup_cons.mp (by simpa [keysOf] using hnd)).2
    by_cases hjk : j = k
    · rw [setEntry, if_pos hjk]
      show (k :: keysOf t).Nodup
      exact List.nodup_cons.mpr ⟨hjk ▸ hj, ht⟩
    · rw [setEntry, if_neg hjk]
      show (j :: keysOf (setEntry t k v)).Nodup
      refine List.nodup_cons.mpr ⟨?_, ih ht⟩
      intro hmem
      rcases mem_keysOf_setEntry hmem with h1 | h1
      · exact hj h1
      · exact hjk h1

theorem mem_keysOf_delEntry {α : Type} {l : List (String × α)} {k j : String}
    (h : j ∈ keysOf (delEntry l k)) : j ∈ keysOf l := by
  obtain ⟨e, he, rfl⟩ := List.mem_map.mp h
  exact List.mem_map.mpr ⟨e, mem_delEntry he, rfl⟩

theorem nodup_keysOf_delEntry {α : Type} {k : String} :
    ∀ {l : List (String × α)}, (keysOf l).Nodup → (keysOf (delEntry l k)).Nodup := by
  intro l
  induction l with
  | nil =>
    intro h
    exact h
  | cons e t ih =>
    obtain ⟨j, w⟩ := e
    intro hnd
    have hj : j ∉ keysOf t := (List.nodup_cons.mp (by simpa [keysOf] using hnd)).1
    have ht : (keysOf t).Nodup := (List.nodup_cons.mp (by simpa [keysOf] using hnd)).2
    by_cases hjk : j = k
    · rw [delEntry, if_pos hjk]
      exact ih ht
    · rw [delEntry, if_neg hjk]
      show (j :: keysOf (delEntry t k)).Nodup
      exact List.nodup_cons.mpr ⟨fun hm => hj (mem_keysOf_delEntry hm), ih ht⟩

theorem length_setEntry_of_none {α : Type} {k : String} {v : α} :
    ∀ {l : List (String × α)}, lookupKey l k = none →
      (setEntry l k v).length = l.length + 1 := by
  intro l
  induction l with
  | nil =>
    intro _
    rfl
  | cons e t ih =>
    obtain ⟨j, w⟩ := e
    intro h
    rw [lookupKey] at h
    by_cases hjk : j = k
    · rw [if_pos hjk] at h
      exact absurd h (by simp)
    · rw [if_neg hjk] at h
      rw [setEntry, if_neg hjk, List.length_cons, List.length_cons, ih h]

theorem length_setEntry_of_some {α : Type} {k : String} {v w : α} :
    ∀ {l : List (String × α)}, lookupKey l k = some w →
      (setEntry l k v).length = l.length := by
  intro l
  induction l with
  | nil =>
    intro h
    simp [lookupKey] at h
  | cons e t ih =>
    obtain ⟨j, w0⟩ := e
    intro h
    rw [lookupKey] at h
    by_cases hjk : j = k
    · rw [setEntry, if_pos hjk]
      rfl
    · rw [if_neg hjk] at h
      rw [setEntry, if_neg hjk, List.length_cons, List.length_cons, ih h]

theorem delEntry_of_none {α : Type} {k : String} :
    ∀ {l : List (String × α)}, lookupKey l k = none → delEntry l k = l := by
  intro l
  induction l with
  | nil =>
    intro _
    rfl
  | cons e t ih =>
    obtain ⟨j, w⟩ := e
    intro h
    rw [lookupKey] at h
    by_cases hjk : j = k
    · rw [if_pos hjk] at h
      exact absurd h (by simp)
    · rw [if_neg hjk] at h
      rw [delEntry, if_neg hjk, ih h]

theorem length_delEntry_of_some {α : Type} {k : String} {v : α} :
    ∀ {l : List (String × α)}, (keysOf l).Nodup →
      lookupKey l k = some v → l.length = (delEntry l k).length + 1 := by
  intro l
  induction l with
  | nil =>
    intro _ h
    simp [lookupKey] at h
  | cons e t ih =>
    obtain ⟨j, w⟩ := e
    intro hnd h
    have hj : j ∉ keysOf t := (List.nodup_cons.mp (by simpa [keysOf] using hnd)).1
    have ht : (keysOf t).Nodup := (List.nodup_cons.mp (by simpa [keysOf] using hnd)).2
    rw [lookupKey] at h
    by_cases hjk : j = k
    · rw [delEntry, if_pos hjk]
      have hnone : lookupKey t k = none := (lookupKey_eq_none t k).mpr (hjk ▸ hj)
      rw [delEntry_of_none hnone]
      simp
    · rw [if_neg hjk] at h
      rw [delEntry, if_neg hjk, List.length_cons, List.length_cons, ih ht h]

/-! Evolution of the hash namespace under a create and a delete. -/

theorem hashes_applyOps_congr : ∀ (l : List Op) (s₁ s₂ : Store),
    s₁.hashes = s₂.hashes → (applyOps l s₁).hashes = (applyOps l s₂).hashes
  | [], _, _, h => h
  | op :: l, s₁, s₂, h => by
    rw [applyOps_cons, applyOps_cons]
    apply hashes_applyOps_congr l
    cases op with
    | sAdd id => exact h
    | sRem id => exact h
    | hIncrBy f d => exact h
    | hSet id f v =>
      show setEntry s₁.hashes id (setEntry (hGetAll s₁ id) f v) =
        setEntry s₂.hashes id (setEntry (hGetAll s₂ id) f v)
      rw [h, hGetAll, hGetAll, h]
    | hDel id =>
      show delEntry s₁.hashes id = delEntry s₂.hashes id
      rw [h]

theorem createOps_hashes (id : String) (data : List (String × String)) (s : Store) :
    (applyOps (createOps id data) s).hashes =
      (applyOps (data.map fun kv => Op.hSet id kv.1 kv.2) s).hashes := by
  rw [createOps, applyOps_cons, applyOps_append,
    (incrs_applyOps (createStatsOps data) _ (createStatsOps_incrs data)).1]
  exact hashes_applyOps_congr _ _ _ rfl

theorem deleteOps_hashes (s : Store) (id : String) (hne : ¬hGetAll s id = []) :
    (applyOps (deleteOps s id) s).hashes = delEntry s.hashes id := by
  rw [deleteOps, if_neg hne, applyOps_cons, applyOps_cons,
    (incrs_applyOps (deleteStatsOps (hGetAll s id)) _ (deleteStatsOps_incrs _)).1]
  rfl

theorem deleteOps_tr_sum (s : Store) (id : String) (hne : ¬hGetAll s id = []) :
    ((deleteOps s id).map (fieldDelta "totalResidents")).sum = -1 := by
  have htv : ¬(("totalResidents" : String) = "totalVoters") := by decide
  rw [deleteOps, if_neg hne, List.map_cons, List.sum_cons, List.map_cons,
    List.sum_cons, deleteStatsOps, List.map_append, List.sum_append]
  have hv : ((if lookupKey (hGetAll s id) "votersStatus" = some "Registered"
      then [Op.hIncrBy "totalVoters" (-1)] else []).map
      (fieldDelta "totalResidents")).sum = 0 := by
    split
    · simp [fieldDelta, htv]
    · rfl
  rw [hv]
  simp [fieldDelta,
    Ne.symm (residents_colon_ne ((lookupKey (hGetAll s id) "purok").getD "undefined"))]

/-- All field writes of a create, folded: the hash of id exists afterwards,
and the number of hash keys grows by one exactly when id was fresh (for a
non-empty field list). -/
theorem hset_fold_keep (id : String) :
    ∀ (data : List (String × String)) (s : Store) {w},
      lookupKey s.hashes id = some w →
      (applyOps (data.map fun kv => Op.hSet id kv.1 kv.2) s).hashes.length =
        s.hashes.length ∧
      ∃ w2, lookupKey
        (applyOps (data.map fun kv => Op.hSet id kv.1 kv.2) s).hashes id = some w2
  | [], s, w, h => ⟨rfl, w, h⟩
  | kv :: data, s, w, h => by
    rw [List.map_cons, applyOps_cons]
    have hstep_lk : lookupKey ((Op.hSet id kv.1 kv.2).apply s).hashes id =
        some (setEntry (hGetAll s id) kv.1 kv.2) := by
      show lookupKey (setEntry s.hashes id _) id = _
      rw [lookupKey_setEntry, if_pos rfl]
    have hstep_len : ((Op.hSet id kv.1 kv.2).apply s).hashes.length =
        s.hashes.length := by
      show (setEntry s.hashes id _).length = _
      exact length_setEntry_of_some h
    obtain ⟨h1, h2⟩ := hset_fold_keep id data _ hstep_lk
    exact ⟨h1.trans hstep_len, h2⟩

theorem hset_fold_new (id : String) (data : List (String × String)) (s : Store)
    (h : lookupKey s.hashes id = none) (hd : ¬data = []) :
    (applyOps (data.map fun kv => Op.hSet id kv.1 kv.2) s).hashes.length =
      s.hashes.length + 1 := by
  cases data with
  | nil => exact absurd rfl hd
  | cons kv t =>
    rw [List.map_cons, applyOps_cons]
    have hstep_lk : lookupKey ((Op.hSet id kv.1 kv.2).apply s).hashes id =
        some (setEntry (hGetAll s id) kv.1 kv.2) := by
      show lookupKey (setEntry s.hashes id _) id = _
      rw [lookupKey_setEntry, if_pos rfl]
    have hstep_len : ((Op.hSet id kv.1 kv.2).apply s).hashes.length =
        s.hashes.length + 1 := by
      show (setEntry s.hashes id _).length = _
      exact length_setEntry_of_none h
    rw [(hset_fold_keep id t _ hstep_lk).1, hstep_len]

theorem hset_fold_nodup (id : String) :
    ∀ (data : List (String × String)) (s : Store), (keysOf s.hashes).Nodup →
      (keysOf (applyOps (data.map fun kv => Op.hSet id kv.1 kv.2) s).hashes).Nodup
  | [], _, h => h
  | kv :: data, s, h => by
    rw [List.map_cons, applyOps_cons]
    exact hset_fold_nodup id data _ (nodup_keysOf_setEntry h)

theorem hset_fold_entries (id : String) :
    ∀ (data : List (String × String)) (s : Store),
      (∀ e ∈ s.hashes, ¬e.2 = []) →
      ∀ e ∈ (applyOps (data.map fun kv => Op.hSet id kv.1 kv.2) s).hashes,
        ¬e.2 = []
  | [], _, h => h
  | kv :: data, s, h => by
    rw [List.map_cons, applyOps_cons]
    refine hset_fold_entries id data _ ?_
    intro e he
    rcases mem_setEntry he with h1 | h1
    · exact h e h1
    · rw [h1]
      exact setEntry_ne_nil _ _ _

/-! The counter-consistency invariant of sequential runs. -/

/-- Hash keys are distinct, every stored hash is non-empty, and the
incremental totalResidents counter equals the number of resident hash keys
(the figure the full recomputation counts). -/
def storeInv (s : Store) : Prop :=
  (keysOf s.hashes).Nodup ∧ (∀ e ∈ s.hashes, ¬e.2 = []) ∧
  s.stats "totalResidents" = (s.hashes.length : Int)

theorem storeInv_create (s : Store) (id : String) (data : List (String × String))
    (hfresh : hGetAll s id = []) (hd : ¬data = []) (hinv : storeInv s) :
    storeInv (applyOps (createOps id data) s) := by
  obtain ⟨hnd, hE, hstats⟩ := hinv
  have hnone : lookupKey s.hashes id = none := by
    cases hl : lookupKey s.hashes id with
    | none => rfl
    | some h0 =>
      have hmem := lookupKey_mem hl
      have := hE _ hmem
      rw [hGetAll, hl] at hfresh
      exact absurd hfresh this
  have hlen : (applyOps (createOps id data) s).hashes.length =
      s.hashes.length + 1 := by
    rw [createOps_hashes]
    exact hset_fold_new id data s hnone hd
  refine ⟨?_, ?_, ?_⟩
  · rw [createOps_hashes]
    exact hset_fold_nodup id data s hnd
  · rw [createOps_hashes]
    exact hset_fold_entries id data s hE
  · rw [stats_applyOps, createOps_tr_sum, hstats, hlen]
    push_cast
    ring

theorem storeInv_delete (s : Store) (id : String)
    (hne : ¬hGetAll s id = []) (hinv : storeInv s) :
    storeInv (applyOps (deleteOps s id) s) := by
  obtain ⟨hnd, hE, hstats⟩ := hinv
  obtain ⟨h0, hsome⟩ : ∃ h0, lookupKey s.hashes id = some h0 := by
    cases hl : lookupKey s.hashes id with
    | none =>
      rw [hGetAll, hl] at hne
      exact absurd rfl hne
    | some h0 => exact ⟨h0, rfl⟩
  have hlen : s.hashes.length = (delEntry s.hashes id).length + 1 :=
    length_delEntry_of_some hnd hsome
  refine ⟨?_, ?_, ?_⟩
  · rw [deleteOps_hashes s id hne]
    exact nodup_keysOf_delEntry hnd
  · rw [deleteOps_hashes s id hne]
    intro e he
    exact hE e (mem_delEntry he)
  · rw [stats_applyOps, deleteOps_tr_sum s id hne, hstats,
      deleteOps_hashes s id hne, hlen]
    push_cast
    ring

theorem storeInv_runCmds :
    ∀ (cmds : List Cmd) (s : Store), storeInv s → okSeq s cmds = true →
      createsNonempty cmds = true → storeInv (runCmds cmds s)
  | [], _, hinv, _, _ => hinv
  | c :: t, s, hinv, hok, hne => by
    rw [okSeq, Bool.and_eq_true] at hok
    show storeInv (runCmds t (runCmd s c))
    cases c with
    | create id data =>
      have hfresh : hGetAll s id = [] := of_decide_eq_true hok.1
      rw [createsNonempty, Bool.and_eq_true] at hne
      exact storeInv_runCmds t _
        (storeInv_create s id data hfresh (of_decide_eq_true hne.1) hinv)
        hok.2 hne.2
    | delete id =>
      have hdel : ¬hGetAll s id = [] := of_decide_eq_true hok.1
      rw [createsNonempty] at hne
      exact storeInv_runCmds t _ (storeInv_delete s id hdel hinv) hok.2 hne

theorem fullStats_total_aux :
    ∀ (l : List (String × List (String × String))) (acc : FullStats),
      (l.foldl (fun acc e => fullStatsStep acc e.2) acc).total =
        acc.total + l.length
  | [], acc => by simp
  | e :: t, acc => by
    rw [List.foldl_cons, fullStats_total_aux t, List.length_cons]
    show (fullStatsStep acc e.2).total + t.length = _
    show acc.total + 1 + t.length = acc.total + (t.length + 1)
    omega

theorem analyticsStats_total (s : Store) :
    (getAnalyticsStats s).total = s.hashes.length := by
  rw [getAnalyticsStats, fullStats_total_aux]
  show 0 + s.hashes.length = s.hashes.length
  omega

theorem emptyStore_inv : storeInv emptyStore :=
  ⟨List.nodup_nil, fun _ he => absurd he (List.not_mem_nil _), rfl⟩

/-- C3: the claim fails as stated: a successfully completed create that
supplies no fields (the handler accepts an empty body with 201) increments
totalResidents but writes no hash, so the full recomputation counts 0 while
the incremental counter reads 1. -/
theorem C3_counterexample :
    okSeq emptyStore [Cmd.create "a" []] = true ∧
    ¬((runCmds [Cmd.create "a" []] emptyStore).stats "totalResidents" =
      ((getAnalyticsStats (runCmds [Cmd.create "a" []] emptyStore)).total : Int)) := by
  refine ⟨by decide, by decide⟩

/-- C3 (amended): starting from the empty store, for every sequence of
successfully completed create and delete operations run sequentially, in
which every create writes at least one field, the incremental totalResidents
counter equals the resident total computed by the full-recomputation read
path. -/
theorem C3_seq_agreement (cmds : List Cmd)
    (hok : okSeq emptyStore cmds = true)
    (hne : createsNonempty cmds = true) :
    (runCmds cmds emptyStore).stats "totalResidents" =
      ((getAnalyticsStats (runCmds cmds emptyStore)).total : Int) := by
  have hinv := storeInv_runCmds cmds emptyStore emptyStore_inv hok hne
  rw [hinv.2.2, analyticsStats_total]

theorem C3_witness :
    (runCmds [Cmd.create "a" [("firstName", "Juan")], Cmd.delete "a",
      Cmd.create "b" [("purok", "7")]] emptyStore).stats "totalResidents" =
    ((getAnalyticsStats (runCmds [Cmd.create "a" [("firstName", "Juan")],
      Cmd.delete "a", Cmd.create "b" [("purok", "7")]] emptyStore)).total : Int) :=
  C3_seq_agreement [Cmd.create "a" [("firstName", "Juan")], Cmd.delete "a",
    Cmd.create "b" [("purok", "7")]] (by decide) (by decide)

end Barangay
